import Mathlib

/-!
Shallow embedding of the Concurrent-Containers repository (sgl_stack.cpp,
sgl_queue.cpp, treiber_stack.cpp, msqueue.cpp, elimination_stack.cpp,
fc_stack.cpp, fc_queue.cpp, condvar.cpp, containers.h).

Each container is embedded at the level of its sequential (single-thread,
respectively linearized) semantics: with no contention every
compare-and-swap in the source succeeds on the first attempt and every
try_lock succeeds, so the loops of the source collapse to the
deterministic functions below.  For the Michael-Scott queue we
additionally give a labelled small-step relation whose steps are the
linearization points of the source (the successful CAS instructions and
the throw), so that states reachable under arbitrary interleavings can be
reasoned about.  Machine integers are modelled as Int (no arithmetic in
the repository ever approaches the width of int), pointers as indices
into an append-only heap list, and the C++ throw of
std::runtime_error("empty") as the Except.error "empty" value.
-/

/-- ELIM_SIZE from containers.h. -/
def ELIM_SIZE : Nat := 8

/-- MAX_THREADS from containers.h. -/
def MAX_THREADS : Nat := 32

/-- bounded_queue::SIZE from containers.h. -/
def SIZE : Int := 50

/- ### Single-global-lock stack and queue (sgl_stack.cpp, sgl_queue.cpp)

Under the mutex each operation acts on the sequential std container; the
std::stack is the list with its top at the list head, the std::queue is
the list with its front at the list head. -/

/-- sgl_stack::push: data.push(value) under the lock. -/
def sgl_stack_push (s : List Int) (v : Int) : List Int := v :: s

/-- sgl_stack::pop: under the lock, throw "empty" when data.empty(),
otherwise return data.top() and data.pop().  The second component is the
state of the container when the call returns. -/
def sgl_stack_pop (s : List Int) : Except String Int × List Int :=
  match s with
  | [] => (.error "empty", [])
  | v :: rest => (.ok v, rest)

/-- sgl_queue::enqueue: data.push(value) under the lock. -/
def sgl_queue_enqueue (q : List Int) (v : Int) : List Int := q ++ [v]

/-- sgl_queue::dequeue: under the lock, throw "empty" when data.empty(),
otherwise return data.front() and data.pop(). -/
def sgl_queue_dequeue (q : List Int) : Except String Int × List Int :=
  match q with
  | [] => (.error "empty", [])
  | v :: rest => (.ok v, rest)

/- ### Treiber stack (treiber_stack.cpp)

The sole mutable cell is the atomic top pointer; the state is the chain
of nodes hanging off top, listed top first.  With a single thread both
CAS instructions succeed on their first attempt, so push prepends and
pop removes the head (the popped node is leaked by the source, which
does not affect the value-level state). -/

/-- treiber_stack::push: allocate a node, point it at the old top, CAS
top to it (the CAS succeeds with no contention). -/
def treiber_push (s : List Int) (v : Int) : List Int := v :: s

/-- treiber_stack::pop: load top; if null throw "empty"; otherwise read
value and next and CAS top to next (the CAS succeeds with no
contention). -/
def treiber_pop (s : List Int) : Except String Int × List Int :=
  match s with
  | [] => (.error "empty", [])
  | v :: next => (.ok v, next)

/-- A stack operation of the test driver together with nothing else
(the Treiber stack consumes no randomness). -/
inductive StackOp where
  | push (v : Int)
  | pop
deriving DecidableEq, Repr

/-- Run a list of operations against the Treiber stack, collecting the
result of every pop in order. -/
def treiber_run : List StackOp → List Int → List Int × List (Except String Int)
  | [], s => (s, [])
  | .push v :: ops, s => treiber_run ops (treiber_push s v)
  | .pop :: ops, s =>
    let r := treiber_pop s
    let rest := treiber_run ops r.2
    (rest.1, r.1 :: rest.2)

/-- Claim C1: on a freshly constructed Treiber stack used by a single
thread, push(1); push(2); push(3) followed by three pops returns 3, then
2, then 1, and a fourth pop fails with the empty-error. -/
theorem treiber_stack_single_thread_scenario :
    (treiber_run [.push 1, .push 2, .push 3, .pop, .pop, .pop, .pop] []).2 =
      [.ok 3, .ok 2, .ok 1, .error "empty"] := rfl

/- ### Michael-Scott queue (msqueue.cpp)

Nodes live in an append-only heap list; a pointer is an index into that
list (the null pointer is Option.none).  head and tail are indices.
Nodes unlinked by dequeue are leaked by the source, so they simply stay
in the heap. -/

/-- A node of msqueue: int value and atomic next pointer. -/
structure MSNode where
  value : Int
  next : Option Nat
deriving DecidableEq, Repr

/-- The msqueue shared state: the node heap and the atomic head and tail
pointers. -/
structure MSQueue where
  heap : List MSNode
  head : Nat
  tail : Nat
deriving DecidableEq, Repr

/-- The next field of the node at index i (none when i is out of
range, which never happens for a pointer actually held). -/
def msNext (s : MSQueue) (i : Nat) : Option Nat :=
  (s.heap.getD i ⟨0, none⟩).next

/-- The value field of the node at index i. -/
def msValue (s : MSQueue) (i : Nat) : Int :=
  (s.heap.getD i ⟨0, none⟩).value

/-- msqueue::msqueue(): allocate a dummy node with value 0 and null
next; head and tail both point at it. -/
def msqueue_init : MSQueue :=
  { heap := [⟨0, none⟩], head := 0, tail := 0 }

/-- The successful CAS(last->next, null, n) of enqueue (line 39): the
new node is allocated at the end of the heap and the node at tail is
repointed at it.  Precondition (checked by the CAS): that node had null
next. -/
def msLink (s : MSQueue) (v : Int) : MSQueue :=
  { heap := (s.heap.set s.tail { s.heap.getD s.tail ⟨0, none⟩ with
               next := some s.heap.length }) ++ [⟨v, none⟩],
    head := s.head, tail := s.tail }

/-- A successful CAS on tail (lines 41, 46 and 67): swing tail to p. -/
def msSwing (s : MSQueue) (p : Nat) : MSQueue :=
  { s with tail := p }

/-- The successful CAS(head, first, next) of dequeue (line 71): advance
head to p.  The old dummy is leaked. -/
def msAdvanceHead (s : MSQueue) (p : Nat) : MSQueue :=
  { s with head := p }

/-- The while(true) loop of msqueue::enqueue under single-thread
semantics: both CAS instructions succeed when attempted, so one
iteration links and swings unless tail lags, in which case the thread
first helps tail forward and retries.  The fuel bounds the number of
help steps; it is never exhausted on states whose tail lags by at most
one link. -/
def msqueue_enqueue_loop (fuel : Nat) (s : MSQueue) (v : Int) : MSQueue :=
  match fuel with
  | 0 => s
  | fuel + 1 =>
    match msNext s s.tail with
    | none => msSwing (msLink s v) s.heap.length
    | some p => msqueue_enqueue_loop fuel (msSwing s p) v

/-- msqueue::enqueue run by a single thread. -/
def msqueue_enqueue (s : MSQueue) (v : Int) : MSQueue :=
  msqueue_enqueue_loop (s.heap.length + 1) s v

/-- The while(true) loop of msqueue::dequeue under single-thread
semantics.  first = head, last = tail, next = first->next; if
first == last then an absent next means empty (throw), a present next
means tail lags and the thread helps and retries; otherwise the head CAS
succeeds and next->value is returned.  The error "corrupt" marks the
branch in which the source would dereference a null next; it is
unreachable from reachable states. -/
def msqueue_dequeue_loop (fuel : Nat) (s : MSQueue) :
    Except String Int × MSQueue :=
  match fuel with
  | 0 => (.error "fuel", s)
  | fuel + 1 =>
    match msNext s s.head with
    | none =>
      if s.head = s.tail then (.error "empty", s)
      else (.error "corrupt", s)
    | some p =>
      if s.head = s.tail then msqueue_dequeue_loop fuel (msSwing s p)
      else (.ok (msValue s p), msAdvanceHead s p)

/-- msqueue::dequeue run by a single thread. -/
def msqueue_dequeue (s : MSQueue) : Except String Int × MSQueue :=
  msqueue_dequeue_loop (s.heap.length + 1) s

/-- A queue operation of the test driver. -/
inductive QueueOp where
  | enqueue (v : Int)
  | dequeue
deriving DecidableEq, Repr

/-- Run a list of operations against the msqueue, collecting the result
of every dequeue in order. -/
def msqueue_run : List QueueOp → MSQueue → MSQueue × List (Except String Int)
  | [], s => (s, [])
  | .enqueue v :: ops, s => msqueue_run ops (msqueue_enqueue s v)
  | .dequeue :: ops, s =>
    let r := msqueue_dequeue s
    let rest := msqueue_run ops r.2
    (rest.1, r.1 :: rest.2)

/-- Claim C2: on a freshly constructed Michael-Scott queue used by a
single thread, enqueue(1); enqueue(2); enqueue(3) followed by three
dequeues returns 1, then 2, then 3, and a fourth dequeue fails with the
empty-error. -/
theorem msqueue_single_thread_scenario :
    (msqueue_run [.enqueue 1, .enqueue 2, .enqueue 3,
                  .dequeue, .dequeue, .dequeue, .dequeue] msqueue_init).2 =
      [.ok 1, .ok 2, .ok 3, .error "empty"] := rfl

/- ### Elimination stack (elimination_stack.cpp)

Treiber stack plus the two arrays elim_ops and elim_vals of length
ELIM_SIZE.  Each operation first polls one randomly chosen slot with a
single compare_exchange_strong and falls back to the Treiber path when
the CAS fails.  The rand() value consumed by an operation is a
parameter r; the slot is r % ELIM_SIZE exactly as in the source. -/

/-- The elimination stack state: the Treiber chain from top (top first)
and the two atomic arrays. -/
structure ElimState where
  top : List Int
  elim_ops : List Int
  elim_vals : List Int
deriving DecidableEq, Repr

/-- elimination_stack::elimination_stack(): top = null and both arrays
zeroed (containers.h lines 82-87). -/
def elim_init : ElimState :=
  { top := [],
    elim_ops := List.replicate ELIM_SIZE 0,
    elim_vals := List.replicate ELIM_SIZE 0 }

/-- elimination_stack::push: pick slot = rand() % ELIM_SIZE, attempt
CAS(elim_ops[slot], 2, 0); on success write elim_vals[slot] = value and
return (the freshly allocated node is deleted); otherwise run the
Treiber push loop on top. -/
def elimination_push (st : ElimState) (r : Nat) (v : Int) : ElimState :=
  if st.elim_ops.getD (r % ELIM_SIZE) 0 = 2 then
    { st with elim_ops := st.elim_ops.set (r % ELIM_SIZE) 0,
              elim_vals := st.elim_vals.set (r % ELIM_SIZE) v }
  else
    { st with top := treiber_push st.top v }

/-- elimination_stack::pop: pick slot = rand() % ELIM_SIZE, attempt
CAS(elim_ops[slot], 1, 0); on success return elim_vals[slot]; otherwise
run the Treiber pop loop on top (throwing "empty" when top is null). -/
def elimination_pop (st : ElimState) (r : Nat) : Except String Int × ElimState :=
  if st.elim_ops.getD (r % ELIM_SIZE) 0 = 1 then
    (.ok (st.elim_vals.getD (r % ELIM_SIZE) 0),
     { st with elim_ops := st.elim_ops.set (r % ELIM_SIZE) 0 })
  else
    ((treiber_pop st.top).1, { st with top := (treiber_pop st.top).2 })

/-- Run a list of operations against the elimination stack; each
operation carries the rand() value it consumes. -/
def elimination_run :
    List (StackOp × Nat) → ElimState → ElimState × List (Except String Int)
  | [], st => (st, [])
  | (.push v, r) :: ops, st => elimination_run ops (elimination_push st r v)
  | (.pop, r) :: ops, st =>
    let p := elimination_pop st r
    let rest := elimination_run ops p.2
    (rest.1, p.1 :: rest.2)

/-- When the elim_ops array is all zero, push always takes the Treiber
fallback (the CAS expects 2 and sees 0). -/
theorem elimination_push_fallback (st : ElimState) (r : Nat) (v : Int)
    (h : st.elim_ops = List.replicate ELIM_SIZE 0) :
    elimination_push st r v = { st with top := treiber_push st.top v } := by
  have hz : st.elim_ops.getD (r % ELIM_SIZE) 0 = 0 := by
    rw [h]
    have hlt : r % ELIM_SIZE < ELIM_SIZE := Nat.mod_lt _ (by decide)
    simp [List.getD, List.getElem?_replicate, hlt]
  unfold elimination_push
  rw [hz]
  norm_num

/-- When the elim_ops array is all zero, pop always takes the Treiber
fallback (the CAS expects 1 and sees 0). -/
theorem elimination_pop_fallback (st : ElimState) (r : Nat)
    (h : st.elim_ops = List.replicate ELIM_SIZE 0) :
    elimination_pop st r =
      ((treiber_pop st.top).1, { st with top := (treiber_pop st.top).2 }) := by
  have hz : st.elim_ops.getD (r % ELIM_SIZE) 0 = 0 := by
    rw [h]
    have hlt : r % ELIM_SIZE < ELIM_SIZE := Nat.mod_lt _ (by decide)
    simp [List.getD, List.getElem?_replicate, hlt]
  unfold elimination_pop
  rw [hz]
  norm_num

/-- Claim C6: the elimination stack is observationally equivalent to the
Treiber stack.  No operation ever stores a value other than 0 into any
elim_ops entry, so from the zeroed initial array elim_ops stays all
zero in every reachable state, the elimination CAS (expecting 1 in pop,
2 in push) never succeeds, and every push and pop takes the Treiber
fallback path: for every operation sequence the final chain and all pop
results coincide with those of a plain Treiber stack. -/
theorem elimination_stack_equiv_treiber (ops : List (StackOp × Nat)) :
    (elimination_run ops elim_init).1.elim_ops = List.replicate ELIM_SIZE 0 ∧
    (elimination_run ops elim_init).1.top = (treiber_run (ops.map Prod.fst) []).1 ∧
    (elimination_run ops elim_init).2 = (treiber_run (ops.map Prod.fst) []).2 := by
  suffices h : ∀ (l : List (StackOp × Nat)) (st : ElimState),
      st.elim_ops = List.replicate ELIM_SIZE 0 →
      (elimination_run l st).1.elim_ops = List.replicate ELIM_SIZE 0 ∧
      (elimination_run l st).1.top = (treiber_run (l.map Prod.fst) st.top).1 ∧
      (elimination_run l st).2 = (treiber_run (l.map Prod.fst) st.top).2 by
    exact h ops elim_init rfl
  intro l
  induction l with
  | nil => intro st hst; exact ⟨hst, rfl, rfl⟩
  | cons hd tl ih =>
    intro st hst
    obtain ⟨op, r⟩ := hd
    cases op with
    | push v =>
      have hfb := elimination_push_fallback st r v hst
      have ih2 := ih { st with top := treiber_push st.top v } (by simpa using hst)
      simpa [elimination_run, treiber_run, hfb] using ih2
    | pop =>
      have hfb := elimination_pop_fallback st r hst
      have ih2 := ih { st with top := (treiber_pop st.top).2 } (by simpa using hst)
      refine ⟨?_, ?_, ?_⟩ <;>
        simp [elimination_run, treiber_run, hfb, ih2.1, ih2.2.1, ih2.2.2]

/- ### Flat combining stack and queue (fc_stack.cpp, fc_queue.cpp)

Both classes own a sequential container (std::stack / std::queue of
int), a mutex, and an array of MAX_THREADS slots.  The constructors
(containers.h lines 106-111 and 129-134) set op = 0 and done = false in
every slot but never write val or result: those two fields start as the
indeterminate memory the object happens to occupy, which appears below
as the parameters v0 and r0 of the initial state.  Under single-thread
semantics try_lock always succeeds, so the caller is always its own
combiner. -/

/-- One slot of the flat-combining protocol. -/
structure FCSlot where
  op : Int
  val : Int
  result : Int
  done : Bool
deriving DecidableEq, Repr

/-- Shared state of fc_stack / fc_queue: the sequential container and
the slot array (std::stack has its top at the list head; std::queue has
its front at the list head). -/
structure FCState where
  data : List Int
  slots : List FCSlot
deriving DecidableEq, Repr

/-- Slot i of the array. -/
def fcSlotGet (st : FCState) (i : Nat) : FCSlot :=
  st.slots.getD i ⟨0, 0, 0, false⟩

/-- The fc_stack / fc_queue constructor: all ops 0, all done false, val
and result left holding the indeterminate bytes v0 i and r0 i. -/
def fc_init (v0 r0 : Nat → Int) : FCState :=
  { data := [],
    slots := (List.range MAX_THREADS).map fun i => ⟨0, v0 i, r0 i, false⟩ }

/-- The body of the combiner scan of fc_stack::combine for one slot
index: op 1 pushes val onto the stack and sets done; op 2 writes top()
into result and pops if the stack is non-empty, then sets done (result
is left untouched when the stack is empty); any other op is skipped. -/
def fc_stack_combine_slot (st : FCState) (i : Nat) : FCState :=
  let sl := fcSlotGet st i
  if sl.op = 1 then
    { data := sl.val :: st.data, slots := st.slots.set i { sl with done := true } }
  else if sl.op = 2 then
    match st.data with
    | [] => { st with slots := st.slots.set i { sl with done := true } }
    | v :: rest =>
      { data := rest, slots := st.slots.set i { sl with result := v, done := true } }
  else st

/-- fc_stack::combine: scan the slots in index order. -/
def fc_stack_combine (st : FCState) : FCState :=
  (List.range MAX_THREADS).foldl fc_stack_combine_slot st

/-- The body of the combiner scan of fc_queue::combine for one slot
index: as for the stack, but op 1 appends val at the back and op 2
takes front(). -/
def fc_queue_combine_slot (st : FCState) (i : Nat) : FCState :=
  let sl := fcSlotGet st i
  if sl.op = 1 then
    { data := st.data ++ [sl.val], slots := st.slots.set i { sl with done := true } }
  else if sl.op = 2 then
    match st.data with
    | [] => { st with slots := st.slots.set i { sl with done := true } }
    | v :: rest =>
      { data := rest, slots := st.slots.set i { sl with result := v, done := true } }
  else st

/-- fc_queue::combine: scan the slots in index order. -/
def fc_queue_combine (st : FCState) : FCState :=
  (List.range MAX_THREADS).foldl fc_queue_combine_slot st

/-- Overwrite slot s (the posting writes of push/pop/enqueue/dequeue). -/
def fc_post (st : FCState) (s : Nat) (a : FCSlot) : FCState :=
  { st with slots := st.slots.set s a }

/-- The final slots[s].op = 0 write of every operation. -/
def fc_reset (st : FCState) (s : Nat) : FCState :=
  fc_post st s { fcSlotGet st s with op := 0 }

/-- The tail of fc_stack::pop / fc_queue::dequeue: throw "empty"
exactly when slots[s].result == -1, else return slots[s].result. -/
def fc_read_result (st : FCState) (s : Nat) : Except String Int :=
  if (fcSlotGet st s).result = -1 then .error "empty"
  else .ok (fcSlotGet st s).result

/-- fc_stack::push run by a single thread owning slot s: post op = 1,
val = value, done = false; try_lock succeeds, so combine runs; then
reset op = 0. -/
def fc_stack_push (st : FCState) (s : Nat) (v : Int) : FCState :=
  fc_reset (fc_stack_combine
    (fc_post st s { fcSlotGet st s with op := 1, val := v, done := false })) s

/-- The container state when fc_stack::pop returns: post op = 2,
done = false; combine; reset op = 0. -/
def fc_stack_pop_state (st : FCState) (s : Nat) : FCState :=
  fc_reset (fc_stack_combine
    (fc_post st s { fcSlotGet st s with op := 2, done := false })) s

/-- fc_stack::pop run by a single thread owning slot s: post op = 2,
done = false; combine; reset op = 0; then read the result field. -/
def fc_stack_pop (st : FCState) (s : Nat) : Except String Int × FCState :=
  (fc_read_result (fc_stack_pop_state st s) s, fc_stack_pop_state st s)

/-- fc_queue::enqueue run by a single thread owning slot s. -/
def fc_queue_enqueue (st : FCState) (s : Nat) (v : Int) : FCState :=
  fc_reset (fc_queue_combine
    (fc_post st s { fcSlotGet st s with op := 1, val := v, done := false })) s

/-- The container state when fc_queue::dequeue returns. -/
def fc_queue_dequeue_state (st : FCState) (s : Nat) : FCState :=
  fc_reset (fc_queue_combine
    (fc_post st s { fcSlotGet st s with op := 2, done := false })) s

/-- fc_queue::dequeue run by a single thread owning slot s: as
fc_stack::pop, reporting "empty" exactly when slots[s].result == -1
after the combine. -/
def fc_queue_dequeue (st : FCState) (s : Nat) : Except String Int × FCState :=
  (fc_read_result (fc_queue_dequeue_state st s) s, fc_queue_dequeue_state st s)

/-- fc_stack::get_slot: my_slot is a thread_local initialised once per
thread from counter.fetch_add(1); the argument is the ticket the thread
drew from the counter (the n-th distinct thread draws ticket n).  The
source applies NO modulo here. -/
def fc_stack_get_slot (ticket : Nat) : Nat := ticket

/-- fc_queue::get_slot: my_slot = counter.fetch_add(1) % MAX_THREADS,
computed once per thread. -/
def fc_queue_get_slot (ticket : Nat) : Nat := ticket % MAX_THREADS

/-- getD after set at the written index. -/
theorem getD_set_self {α : Type} (l : List α) (i : Nat) (a d : α) (h : i < l.length) :
    (l.set i a).getD i d = a := by
  simp [List.getD, List.getElem?_set, h]

/-- getD after set at a different index. -/
theorem getD_set_ne {α : Type} (l : List α) (i j : Nat) (a d : α) (h : i ≠ j) :
    (l.set i a).getD j d = l.getD j d := by
  simp [List.getD, List.getElem?_set_ne h]

/-- The slot array of the constructed state has length MAX_THREADS. -/
theorem fc_init_len (v0 r0 : Nat → Int) : (fc_init v0 r0).slots.length = MAX_THREADS := by
  simp [fc_init]

/-- Slot i of the freshly constructed state, for i in range. -/
theorem fc_init_slot (v0 r0 : Nat → Int) (i : Nat) (h : i < MAX_THREADS) :
    fcSlotGet (fc_init v0 r0) i = ⟨0, v0 i, r0 i, false⟩ := by
  simp [fcSlotGet, fc_init, List.getD, List.getElem?_range, h]

/-- Every slot of the freshly constructed state is idle. -/
theorem fc_init_op (v0 r0 : Nat → Int) (i : Nat) :
    (fcSlotGet (fc_init v0 r0) i).op = 0 := by
  by_cases h : i < MAX_THREADS
  · rw [fc_init_slot v0 r0 i h]
  · have hlen : (fc_init v0 r0).slots.length ≤ i := by
      rw [fc_init_len]; omega
    unfold fcSlotGet
    rw [List.getD_eq_default _ _ hlen]

/-- Reading a slot other than the one just written. -/
theorem fcSlotGet_set_ne (st : FCState) (dta : List Int) (i j : Nat) (a : FCSlot)
    (h : i ≠ j) :
    fcSlotGet ⟨dta, st.slots.set i a⟩ j = fcSlotGet st j :=
  getD_set_ne st.slots i j a _ h

/-- Reading the slot just written. -/
theorem fcSlotGet_set_self (st : FCState) (dta : List Int) (i : Nat) (a : FCSlot)
    (h : i < st.slots.length) :
    fcSlotGet ⟨dta, st.slots.set i a⟩ i = a :=
  getD_set_self st.slots i a _ h

/-- An idle slot is skipped by the stack combiner. -/
theorem fc_stack_combine_slot_skip (st : FCState) (i : Nat)
    (h : (fcSlotGet st i).op = 0) : fc_stack_combine_slot st i = st := by
  simp [fc_stack_combine_slot, h]

/-- The stack combiner body for slot i does not touch slot j. -/
theorem fc_stack_combine_slot_other (st : FCState) (i j : Nat) (h : i ≠ j) :
    fcSlotGet (fc_stack_combine_slot st i) j = fcSlotGet st j := by
  simp only [fc_stack_combine_slot]
  by_cases h1 : (fcSlotGet st i).op = 1
  · rw [if_pos h1]
    exact fcSlotGet_set_ne st _ i j _ h
  · rw [if_neg h1]
    by_cases h2 : (fcSlotGet st i).op = 2
    · rw [if_pos h2]
      cases hd : st.data with
      | nil => exact fcSlotGet_set_ne st _ i j _ h
      | cons v rest => exact fcSlotGet_set_ne st _ i j _ h
    · rw [if_neg h2]

/-- The stack combiner body preserves the slot-array length. -/
theorem fc_stack_combine_slot_len (st : FCState) (i : Nat) :
    (fc_stack_combine_slot st i).slots.length = st.slots.length := by
  by_cases h1 : (fcSlotGet st i).op = 1
  · simp [fc_stack_combine_slot, h1]
  · by_cases h2 : (fcSlotGet st i).op = 2
    · cases hd : st.data with
      | nil => simp [fc_stack_combine_slot, h1, h2, hd]
      | cons v rest => simp [fc_stack_combine_slot, h1, h2, hd]
    · simp [fc_stack_combine_slot, h1, h2]

/-- A scan over indices whose slots are all idle is the identity. -/
theorem fc_stack_combine_fold_skip (l : List Nat) (st : FCState)
    (h : ∀ i ∈ l, (fcSlotGet st i).op = 0) :
    l.foldl fc_stack_combine_slot st = st := by
  induction l with
  | nil => rfl
  | cons a t ih =>
    simp only [List.foldl_cons]
    rw [fc_stack_combine_slot_skip st a (h a (by simp))]
    exact ih fun i hi => h i (by simp [hi])

/-- When at most the slot of the calling thread is active, the full
stack combiner scan acts exactly as its body on that slot. -/
theorem fc_stack_combine_single (st : FCState) (s : Nat) (hs : s < MAX_THREADS)
    (h : ∀ i, i ≠ s → (fcSlotGet st i).op = 0) :
    fc_stack_combine st = fc_stack_combine_slot st s := by
  have h1 : 0 + 1 * s = s := by omega
  have h2 : MAX_THREADS - s + s = MAX_THREADS := by omega
  have hsplit := List.range'_append 0 s (MAX_THREADS - s) 1
  rw [h1, h2] at hsplit
  have h3 : MAX_THREADS - s = (MAX_THREADS - s - 1) + 1 := by omega
  rw [fc_stack_combine, List.range_eq_range', ← hsplit, h3, List.range'_succ,
    List.foldl_append]
  rw [fc_stack_combine_fold_skip (List.range' 0 s) st
    (fun i hi => h i (by
      have := (List.mem_range'_1.mp hi).2
      omega))]
  simp only [List.foldl_cons]
  rw [fc_stack_combine_fold_skip]
  intro i hi
  have hi2 := (List.mem_range'_1.mp hi).1
  have hne : s ≠ i := by omega
  rw [fc_stack_combine_slot_other st s i hne]
  exact h i (by omega)

/-- fc_post does not change the sequential container. -/
theorem fc_post_data (st : FCState) (s : Nat) (a : FCSlot) :
    (fc_post st s a).data = st.data := rfl

/-- fc_post does not change the slot-array length. -/
theorem fc_post_len (st : FCState) (s : Nat) (a : FCSlot) :
    (fc_post st s a).slots.length = st.slots.length := by
  simp [fc_post]

/-- Reading back the slot just posted. -/
theorem fcSlotGet_post_self (st : FCState) (s : Nat) (a : FCSlot)
    (h : s < st.slots.length) : fcSlotGet (fc_post st s a) s = a :=
  fcSlotGet_set_self st st.data s a h

/-- Posting to slot s leaves every other slot alone. -/
theorem fcSlotGet_post_ne (st : FCState) (s j : Nat) (a : FCSlot) (h : s ≠ j) :
    fcSlotGet (fc_post st s a) j = fcSlotGet st j :=
  fcSlotGet_set_ne st st.data s j a h

/-- The stack combiner body on a slot posting a push. -/
theorem fc_stack_combine_slot_op1 (st : FCState) (i : Nat)
    (hop : (fcSlotGet st i).op = 1) :
    fc_stack_combine_slot st i =
      { data := (fcSlotGet st i).val :: st.data,
        slots := st.slots.set i { fcSlotGet st i with done := true } } := by
  simp only [fc_stack_combine_slot]
  rw [if_pos hop]

/-- The stack combiner body on a slot posting a pop while the stack is
empty: done is set but result is left untouched. -/
theorem fc_stack_combine_slot_op2_empty (st : FCState) (i : Nat)
    (hop : (fcSlotGet st i).op = 2) (hdta : st.data = []) :
    fc_stack_combine_slot st i =
      { st with slots := st.slots.set i { fcSlotGet st i with done := true } } := by
  simp only [fc_stack_combine_slot]
  rw [if_neg (by rw [hop]; norm_num), if_pos hop, hdta]

/-- The stack combiner body on a slot posting a pop while the stack is
non-empty: the top is moved into result. -/
theorem fc_stack_combine_slot_op2_cons (st : FCState) (i : Nat) (v : Int)
    (rest : List Int) (hop : (fcSlotGet st i).op = 2) (hdta : st.data = v :: rest) :
    fc_stack_combine_slot st i =
      { data := rest,
        slots := st.slots.set i { fcSlotGet st i with result := v, done := true } } := by
  simp only [fc_stack_combine_slot]
  rw [if_neg (by rw [hop]; norm_num), if_pos hop, hdta]

/-- The stack combiner preserves the slot-array length. -/
theorem fc_stack_combine_len (st : FCState) :
    (fc_stack_combine st).slots.length = st.slots.length := by
  unfold fc_stack_combine
  generalize List.range MAX_THREADS = l
  induction l generalizing st with
  | nil => rfl
  | cons a t ih =>
    simp only [List.foldl_cons]
    rw [ih, fc_stack_combine_slot_len]

/-- fc_stack::pop on a state with an empty stack and all other slots
idle: the value reported is computed from the prior (for a fresh
container: indeterminate) result field, the stack stays empty, and no
result field of any slot changes. -/
theorem fc_stack_pop_empty_spec (st : FCState) (s : Nat) (hs : s < MAX_THREADS)
    (hlen : st.slots.length = MAX_THREADS) (hdta : st.data = [])
    (hidle : ∀ i, i ≠ s → (fcSlotGet st i).op = 0) :
    (fc_stack_pop st s).1 =
      (if (fcSlotGet st s).result = -1 then .error "empty"
       else .ok (fcSlotGet st s).result) ∧
    (fc_stack_pop st s).2.data = [] ∧
    (∀ j, (fcSlotGet (fc_stack_pop st s).2 j).result = (fcSlotGet st j).result) := by
  have hslt : s < st.slots.length := by omega
  set st1 := fc_post st s { fcSlotGet st s with op := 2, done := false } with hst1
  have h1len : st1.slots.length = st.slots.length := fc_post_len st s _
  have h1self : fcSlotGet st1 s = { fcSlotGet st s with op := 2, done := false } :=
    fcSlotGet_post_self st s _ hslt
  have h1ne : ∀ j, j ≠ s → fcSlotGet st1 j = fcSlotGet st j :=
    fun j hj => fcSlotGet_post_ne st s j _ fun e => hj e.symm
  have h1idle : ∀ i, i ≠ s → (fcSlotGet st1 i).op = 0 :=
    fun i hi => by rw [h1ne i hi]; exact hidle i hi
  have h1data : st1.data = [] := hdta
  have hop2 : (fcSlotGet st1 s).op = 2 := by rw [h1self]
  have hcomb : fc_stack_combine st1 = fc_stack_combine_slot st1 s :=
    fc_stack_combine_single st1 s hs h1idle
  have hcs := fc_stack_combine_slot_op2_empty st1 s hop2 h1data
  set st2 := { st1 with slots := st1.slots.set s { fcSlotGet st1 s with done := true } }
    with hst2
  have h2len : st2.slots.length = st.slots.length := by
    rw [hst2]; simpa using h1len
  have h2self : fcSlotGet st2 s = ⟨2, (fcSlotGet st s).val, (fcSlotGet st s).result, true⟩ := by
    rw [hst2, fcSlotGet_set_self st1 _ s _ (by omega), h1self]
  have h2ne : ∀ j, j ≠ s → fcSlotGet st2 j = fcSlotGet st j := fun j hj => by
    rw [hst2, fcSlotGet_set_ne st1 _ s j _ fun e => hj e.symm]
    exact h1ne j hj
  have h2data : st2.data = [] := h1data
  set st3 := fc_reset st2 s with hst3
  have h3self : fcSlotGet st3 s = ⟨0, (fcSlotGet st s).val, (fcSlotGet st s).result, true⟩ := by
    rw [hst3]
    unfold fc_reset
    rw [fcSlotGet_post_self st2 s _ (by omega), h2self]
  have h3ne : ∀ j, j ≠ s → fcSlotGet st3 j = fcSlotGet st j := fun j hj => by
    rw [hst3]
    unfold fc_reset
    rw [fcSlotGet_post_ne st2 s j _ fun e => hj e.symm]
    exact h2ne j hj
  have h3data : st3.data = [] := h2data
  have hpop : fc_stack_pop st s = (fc_read_result st3 s, st3) := by
    unfold fc_stack_pop fc_stack_pop_state
    rw [← hst1, hcomb, hcs, ← hst3]
  rw [hpop]
  refine ⟨?_, h3data, ?_⟩
  · show fc_read_result st3 s = _
    unfold fc_read_result
    rw [h3self]
  · intro j
    show (fcSlotGet st3 j).result = _
    by_cases hj : j = s
    · subst hj
      rw [h3self]
    · rw [h3ne j hj]

/-- fc_stack::pop on a state with a non-empty stack and all other slots
idle: the top value v is combined into the result field and the call
returns v unless v = -1, in which case the legitimately stored value is
misreported as the empty-error. -/
theorem fc_stack_pop_cons_spec (st : FCState) (s : Nat) (v : Int) (rest : List Int)
    (hs : s < MAX_THREADS) (hlen : st.slots.length = MAX_THREADS)
    (hdta : st.data = v :: rest)
    (hidle : ∀ i, i ≠ s → (fcSlotGet st i).op = 0) :
    (fc_stack_pop st s).1 = (if v = -1 then .error "empty" else .ok v) ∧
    (fc_stack_pop st s).2.data = rest := by
  have hslt : s < st.slots.length := by omega
  set st1 := fc_post st s { fcSlotGet st s with op := 2, done := false } with hst1
  have h1len : st1.slots.length = st.slots.length := fc_post_len st s _
  have h1self : fcSlotGet st1 s = { fcSlotGet st s with op := 2, done := false } :=
    fcSlotGet_post_self st s _ hslt
  have h1ne : ∀ j, j ≠ s → fcSlotGet st1 j = fcSlotGet st j :=
    fun j hj => fcSlotGet_post_ne st s j _ fun e => hj e.symm
  have h1idle : ∀ i, i ≠ s → (fcSlotGet st1 i).op = 0 :=
    fun i hi => by rw [h1ne i hi]; exact hidle i hi
  have h1data : st1.data = v :: rest := hdta
  have hop2 : (fcSlotGet st1 s).op = 2 := by rw [h1self]
  have hcomb : fc_stack_combine st1 = fc_stack_combine_slot st1 s :=
    fc_stack_combine_single st1 s hs h1idle
  have hcs := fc_stack_combine_slot_op2_cons st1 s v rest hop2 h1data
  set st2 : FCState :=
    { data := rest,
      slots := st1.slots.set s { fcSlotGet st1 s with result := v, done := true } }
    with hst2
  have h2len : st2.slots.length = st.slots.length := by
    rw [hst2]; simpa using h1len
  have h2self : fcSlotGet st2 s = ⟨2, (fcSlotGet st s).val, v, true⟩ := by
    rw [hst2]
    have := fcSlotGet_set_self st1 rest s
      { fcSlotGet st1 s with result := v, done := true } (by omega)
    rw [this, h1self]
  set st3 := fc_reset st2 s with hst3
  have h3self : fcSlotGet st3 s = ⟨0, (fcSlotGet st s).val, v, true⟩ := by
    rw [hst3]
    unfold fc_reset
    rw [fcSlotGet_post_self st2 s _ (by omega), h2self]
  have h3data : st3.data = rest := rfl
  have hpop : fc_stack_pop st s = (fc_read_result st3 s, st3) := by
    unfold fc_stack_pop fc_stack_pop_state
    rw [← hst1, hcomb, hcs, ← hst3]
  rw [hpop]
  refine ⟨?_, h3data⟩
  show fc_read_result st3 s = _
  unfold fc_read_result
  rw [h3self]

/-- fc_stack::push with all other slots idle: the value is pushed onto
the sequential stack, the slot of the caller ends idle with done set,
and every other slot (in particular its result field) is untouched. -/
theorem fc_stack_push_spec (st : FCState) (s : Nat) (v : Int)
    (hs : s < MAX_THREADS) (hlen : st.slots.length = MAX_THREADS)
    (hidle : ∀ i, i ≠ s → (fcSlotGet st i).op = 0) :
    (fc_stack_push st s v).data = v :: st.data ∧
    (fc_stack_push st s v).slots.length = st.slots.length ∧
    fcSlotGet (fc_stack_push st s v) s = ⟨0, v, (fcSlotGet st s).result, true⟩ ∧
    (∀ j, j ≠ s → fcSlotGet (fc_stack_push st s v) j = fcSlotGet st j) := by
  have hslt : s < st.slots.length := by omega
  set st1 := fc_post st s { fcSlotGet st s with op := 1, val := v, done := false } with hst1
  have h1len : st1.slots.length = st.slots.length := fc_post_len st s _
  have h1self : fcSlotGet st1 s = { fcSlotGet st s with op := 1, val := v, done := false } :=
    fcSlotGet_post_self st s _ hslt
  have h1ne : ∀ j, j ≠ s → fcSlotGet st1 j = fcSlotGet st j :=
    fun j hj => fcSlotGet_post_ne st s j _ fun e => hj e.symm
  have h1idle : ∀ i, i ≠ s → (fcSlotGet st1 i).op = 0 :=
    fun i hi => by rw [h1ne i hi]; exact hidle i hi
  have hop1 : (fcSlotGet st1 s).op = 1 := by rw [h1self]
  have hcomb : fc_stack_combine st1 = fc_stack_combine_slot st1 s :=
    fc_stack_combine_single st1 s hs h1idle
  have hcs := fc_stack_combine_slot_op1 st1 s hop1
  set st2 : FCState :=
    { data := (fcSlotGet st1 s).val :: st1.data,
      slots := st1.slots.set s { fcSlotGet st1 s with done := true } }
    with hst2
  have h2len : st2.slots.length = st.slots.length := by
    rw [hst2]; simpa using h1len
  have h2self : fcSlotGet st2 s = ⟨1, v, (fcSlotGet st s).result, true⟩ := by
    rw [hst2]
    have := fcSlotGet_set_self st1 ((fcSlotGet st1 s).val :: st1.data) s
      { fcSlotGet st1 s with done := true } (by omega)
    rw [this, h1self]
  have h2ne : ∀ j, j ≠ s → fcSlotGet st2 j = fcSlotGet st j := fun j hj => by
    rw [hst2, fcSlotGet_set_ne st1 _ s j _ fun e => hj e.symm]
    exact h1ne j hj
  have h2data : st2.data = v :: st.data := by
    rw [hst2]
    show (fcSlotGet st1 s).val :: st1.data = _
    rw [h1self]
    rfl
  set st3 := fc_reset st2 s with hst3
  have h3self : fcSlotGet st3 s = ⟨0, v, (fcSlotGet st s).result, true⟩ := by
    rw [hst3]
    unfold fc_reset
    rw [fcSlotGet_post_self st2 s _ (by omega), h2self]
  have h3ne : ∀ j, j ≠ s → fcSlotGet st3 j = fcSlotGet st j := fun j hj => by
    rw [hst3]
    unfold fc_reset
    rw [fcSlotGet_post_ne st2 s j _ fun e => hj e.symm]
    exact h2ne j hj
  have hpush : fc_stack_push st s v = st3 := by
    unfold fc_stack_push
    rw [← hst1, hcomb, hcs, ← hst3]
  rw [hpush]
  refine ⟨h2data, ?_, h3self, h3ne⟩
  have : st3.slots.length = st2.slots.length := fc_post_len st2 s _
  omega

/-- An idle slot is skipped by the queue combiner. -/
theorem fc_queue_combine_slot_skip (st : FCState) (i : Nat)
    (h : (fcSlotGet st i).op = 0) : fc_queue_combine_slot st i = st := by
  simp [fc_queue_combine_slot, h]

/-- The queue combiner body for slot i does not touch slot j. -/
theorem fc_queue_combine_slot_other (st : FCState) (i j : Nat) (h : i ≠ j) :
    fcSlotGet (fc_queue_combine_slot st i) j = fcSlotGet st j := by
  simp only [fc_queue_combine_slot]
  by_cases h1 : (fcSlotGet st i).op = 1
  · rw [if_pos h1]
    exact fcSlotGet_set_ne st _ i j _ h
  · rw [if_neg h1]
    by_cases h2 : (fcSlotGet st i).op = 2
    · rw [if_pos h2]
      cases hd : st.data with
      | nil => exact fcSlotGet_set_ne st _ i j _ h
      | cons v rest => exact fcSlotGet_set_ne st _ i j _ h
    · rw [if_neg h2]

/-- The queue combiner body preserves the slot-array length. -/
theorem fc_queue_combine_slot_len (st : FCState) (i : Nat) :
    (fc_queue_combine_slot st i).slots.length = st.slots.length := by
  by_cases h1 : (fcSlotGet st i).op = 1
  · simp [fc_queue_combine_slot, h1]
  · by_cases h2 : (fcSlotGet st i).op = 2
    · cases hd : st.data with
      | nil => simp [fc_queue_combine_slot, h1, h2, hd]
      | cons v rest => simp [fc_queue_combine_slot, h1, h2, hd]
    · simp [fc_queue_combine_slot, h1, h2]

/-- A queue combiner scan over indices whose slots are all idle is the
identity. -/
theorem fc_queue_combine_fold_skip (l : List Nat) (st : FCState)
    (h : ∀ i ∈ l, (fcSlotGet st i).op = 0) :
    l.foldl fc_queue_combine_slot st = st := by
  induction l with
  | nil => rfl
  | cons a t ih =>
    simp only [List.foldl_cons]
    rw [fc_queue_combine_slot_skip st a (h a (by simp))]
    exact ih fun i hi => h i (by simp [hi])

/-- When at most the slot of the calling thread is active, the full
queue combiner scan acts exactly as its body on that slot. -/
theorem fc_queue_combine_single (st : FCState) (s : Nat) (hs : s < MAX_THREADS)
    (h : ∀ i, i ≠ s → (fcSlotGet st i).op = 0) :
    fc_queue_combine st = fc_queue_combine_slot st s := by
  have h1 : 0 + 1 * s = s := by omega
  have h2 : MAX_THREADS - s + s = MAX_THREADS := by omega
  have hsplit := List.range'_append 0 s (MAX_THREADS - s) 1
  rw [h1, h2] at hsplit
  have h3 : MAX_THREADS - s = (MAX_THREADS - s - 1) + 1 := by omega
  rw [fc_queue_combine, List.range_eq_range', ← hsplit, h3, List.range'_succ,
    List.foldl_append]
  rw [fc_queue_combine_fold_skip (List.range' 0 s) st
    (fun i hi => h i (by
      have := (List.mem_range'_1.mp hi).2
      omega))]
  simp only [List.foldl_cons]
  rw [fc_queue_combine_fold_skip]
  intro i hi
  have hi2 := (List.mem_range'_1.mp hi).1
  have hne : s ≠ i := by omega
  rw [fc_queue_combine_slot_other st s i hne]
  exact h i (by omega)

/-- The queue combiner body on a slot posting an enqueue. -/
theorem fc_queue_combine_slot_op1 (st : FCState) (i : Nat)
    (hop : (fcSlotGet st i).op = 1) :
    fc_queue_combine_slot st i =
      { data := st.data ++ [(fcSlotGet st i).val],
        slots := st.slots.set i { fcSlotGet st i with done := true } } := by
  simp only [fc_queue_combine_slot]
  rw [if_pos hop]

/-- The queue combiner body on a slot posting a dequeue while the queue
is empty: done is set but result is left untouched. -/
theorem fc_queue_combine_slot_op2_empty (st : FCState) (i : Nat)
    (hop : (fcSlotGet st i).op = 2) (hdta : st.data = []) :
    fc_queue_combine_slot st i =
      { st with slots := st.slots.set i { fcSlotGet st i with done := true } } := by
  simp only [fc_queue_combine_slot]
  rw [if_neg (by rw [hop]; norm_num), if_pos hop, hdta]

/-- The queue combiner body on a slot posting a dequeue while the queue
is non-empty: the front is moved into result. -/
theorem fc_queue_combine_slot_op2_cons (st : FCState) (i : Nat) (v : Int)
    (rest : List Int) (hop : (fcSlotGet st i).op = 2) (hdta : st.data = v :: rest) :
    fc_queue_combine_slot st i =
      { data := rest,
        slots := st.slots.set i { fcSlotGet st i with result := v, done := true } } := by
  simp only [fc_queue_combine_slot]
  rw [if_neg (by rw [hop]; norm_num), if_pos hop, hdta]

/-- fc_queue::dequeue on a state with an empty queue and all other
slots idle: the value reported is computed from the prior result field,
the queue stays empty, and no result field of any slot changes. -/
theorem fc_queue_dequeue_empty_spec (st : FCState) (s : Nat) (hs : s < MAX_THREADS)
    (hlen : st.slots.length = MAX_THREADS) (hdta : st.data = [])
    (hidle : ∀ i, i ≠ s → (fcSlotGet st i).op = 0) :
    (fc_queue_dequeue st s).1 =
      (if (fcSlotGet st s).result = -1 then .error "empty"
       else .ok (fcSlotGet st s).result) ∧
    (fc_queue_dequeue st s).2.data = [] ∧
    (∀ j, (fcSlotGet (fc_queue_dequeue st s).2 j).result = (fcSlotGet st j).result) := by
  have hslt : s < st.slots.length := by omega
  set st1 := fc_post st s { fcSlotGet st s with op := 2, done := false } with hst1
  have h1len : st1.slots.length = st.slots.length := fc_post_len st s _
  have h1self : fcSlotGet st1 s = { fcSlotGet st s with op := 2, done := false } :=
    fcSlotGet_post_self st s _ hslt
  have h1ne : ∀ j, j ≠ s → fcSlotGet st1 j = fcSlotGet st j :=
    fun j hj => fcSlotGet_post_ne st s j _ fun e => hj e.symm
  have h1idle : ∀ i, i ≠ s → (fcSlotGet st1 i).op = 0 :=
    fun i hi => by rw [h1ne i hi]; exact hidle i hi
  have h1data : st1.data = [] := hdta
  have hop2 : (fcSlotGet st1 s).op = 2 := by rw [h1self]
  have hcomb : fc_queue_combine st1 = fc_queue_combine_slot st1 s :=
    fc_queue_combine_single st1 s hs h1idle
  have hcs := fc_queue_combine_slot_op2_empty st1 s hop2 h1data
  set st2 := { st1 with slots := st1.slots.set s { fcSlotGet st1 s with done := true } }
    with hst2
  have h2len : st2.slots.length = st.slots.length := by
    rw [hst2]; simpa using h1len
  have h2self : fcSlotGet st2 s = ⟨2, (fcSlotGet st s).val, (fcSlotGet st s).result, true⟩ := by
    rw [hst2, fcSlotGet_set_self st1 _ s _ (by omega), h1self]
  have h2ne : ∀ j, j ≠ s → fcSlotGet st2 j = fcSlotGet st j := fun j hj => by
    rw [hst2, fcSlotGet_set_ne st1 _ s j _ fun e => hj e.symm]
    exact h1ne j hj
  have h2data : st2.data = [] := h1data
  set st3 := fc_reset st2 s with hst3
  have h3self : fcSlotGet st3 s = ⟨0, (fcSlotGet st s).val, (fcSlotGet st s).result, true⟩ := by
    rw [hst3]
    unfold fc_reset
    rw [fcSlotGet_post_self st2 s _ (by omega), h2self]
  have h3ne : ∀ j, j ≠ s → fcSlotGet st3 j = fcSlotGet st j := fun j hj => by
    rw [hst3]
    unfold fc_reset
    rw [fcSlotGet_post_ne st2 s j _ fun e => hj e.symm]
    exact h2ne j hj
  have h3data : st3.data = [] := h2data
  have hdeq : fc_queue_dequeue st s = (fc_read_result st3 s, st3) := by
    unfold fc_queue_dequeue fc_queue_dequeue_state
    rw [← hst1, hcomb, hcs, ← hst3]
  rw [hdeq]
  refine ⟨?_, h3data, ?_⟩
  · show fc_read_result st3 s = _
    unfold fc_read_result
    rw [h3self]
  · intro j
    show (fcSlotGet st3 j).result = _
    by_cases hj : j = s
    · subst hj
      rw [h3self]
    · rw [h3ne j hj]

/-- fc_queue::dequeue on a state with a non-empty queue and all other
slots idle: the front value v is combined into the result field and the
call returns v unless v = -1, in which case the legitimately stored
value is misreported as the empty-error. -/
theorem fc_queue_dequeue_cons_spec (st : FCState) (s : Nat) (v : Int) (rest : List Int)
    (hs : s < MAX_THREADS) (hlen : st.slots.length = MAX_THREADS)
    (hdta : st.data = v :: rest)
    (hidle : ∀ i, i ≠ s → (fcSlotGet st i).op = 0) :
    (fc_queue_dequeue st s).1 = (if v = -1 then .error "empty" else .ok v) ∧
    (fc_queue_dequeue st s).2.data = rest := by
  have hslt : s < st.slots.length := by omega
  set st1 := fc_post st s { fcSlotGet st s with op := 2, done := false } with hst1
  have h1len : st1.slots.length = st.slots.length := fc_post_len st s _
  have h1self : fcSlotGet st1 s = { fcSlotGet st s with op := 2, done := false } :=
    fcSlotGet_post_self st s _ hslt
  have h1ne : ∀ j, j ≠ s → fcSlotGet st1 j = fcSlotGet st j :=
    fun j hj => fcSlotGet_post_ne st s j _ fun e => hj e.symm
  have h1idle : ∀ i, i ≠ s → (fcSlotGet st1 i).op = 0 :=
    fun i hi => by rw [h1ne i hi]; exact hidle i hi
  have h1data : st1.data = v :: rest := hdta
  have hop2 : (fcSlotGet st1 s).op = 2 := by rw [h1self]
  have hcomb : fc_queue_combine st1 = fc_queue_combine_slot st1 s :=
    fc_queue_combine_single st1 s hs h1idle
  have hcs := fc_queue_combine_slot_op2_cons st1 s v rest hop2 h1data
  set st2 : FCState :=
    { data := rest,
      slots := st1.slots.set s { fcSlotGet st1 s with result := v, done := true } }
    with hst2
  have h2len : st2.slots.length = st.slots.length := by
    rw [hst2]; simpa using h1len
  have h2self : fcSlotGet st2 s = ⟨2, (fcSlotGet st s).val, v, true⟩ := by
    rw [hst2]
    have := fcSlotGet_set_self st1 rest s
      { fcSlotGet st1 s with result := v, done := true } (by omega)
    rw [this, h1self]
  set st3 := fc_reset st2 s with hst3
  have h3self : fcSlotGet st3 s = ⟨0, (fcSlotGet st s).val, v, true⟩ := by
    rw [hst3]
    unfold fc_reset
    rw [fcSlotGet_post_self st2 s _ (by omega), h2self]
  have h3data : st3.data = rest := rfl
  have hdeq : fc_queue_dequeue st s = (fc_read_result st3 s, st3) := by
    unfold fc_queue_dequeue fc_queue_dequeue_state
    rw [← hst1, hcomb, hcs, ← hst3]
  rw [hdeq]
  refine ⟨?_, h3data⟩
  show fc_read_result st3 s = _
  unfold fc_read_result
  rw [h3self]

/-- fc_queue::enqueue with all other slots idle: the value is appended
at the back of the sequential queue, the slot of the caller ends idle
with done set, and every other slot is untouched. -/
theorem fc_queue_enqueue_spec (st : FCState) (s : Nat) (v : Int)
    (hs : s < MAX_THREADS) (hlen : st.slots.length = MAX_THREADS)
    (hidle : ∀ i, i ≠ s → (fcSlotGet st i).op = 0) :
    (fc_queue_enqueue st s v).data = st.data ++ [v] ∧
    (fc_queue_enqueue st s v).slots.length = st.slots.length ∧
    fcSlotGet (fc_queue_enqueue st s v) s = ⟨0, v, (fcSlotGet st s).result, true⟩ ∧
    (∀ j, j ≠ s → fcSlotGet (fc_queue_enqueue st s v) j = fcSlotGet st j) := by
  have hslt : s < st.slots.length := by omega
  set st1 := fc_post st s { fcSlotGet st s with op := 1, val := v, done := false } with hst1
  have h1len : st1.slots.length = st.slots.length := fc_post_len st s _
  have h1self : fcSlotGet st1 s = { fcSlotGet st s with op := 1, val := v, done := false } :=
    fcSlotGet_post_self st s _ hslt
  have h1ne : ∀ j, j ≠ s → fcSlotGet st1 j = fcSlotGet st j :=
    fun j hj => fcSlotGet_post_ne st s j _ fun e => hj e.symm
  have h1idle : ∀ i, i ≠ s → (fcSlotGet st1 i).op = 0 :=
    fun i hi => by rw [h1ne i hi]; exact hidle i hi
  have hop1 : (fcSlotGet st1 s).op = 1 := by rw [h1self]
  have hcomb : fc_queue_combine st1 = fc_queue_combine_slot st1 s :=
    fc_queue_combine_single st1 s hs h1idle
  have hcs := fc_queue_combine_slot_op1 st1 s hop1
  set st2 : FCState :=
    { data := st1.data ++ [(fcSlotGet st1 s).val],
      slots := st1.slots.set s { fcSlotGet st1 s with done := true } }
    with hst2
  have h2len : st2.slots.length = st.slots.length := by
    rw [hst2]; simpa using h1len
  have h2self : fcSlotGet st2 s = ⟨1, v, (fcSlotGet st s).result, true⟩ := by
    rw [hst2]
    have := fcSlotGet_set_self st1 (st1.data ++ [(fcSlotGet st1 s).val]) s
      { fcSlotGet st1 s with done := true } (by omega)
    rw [this, h1self]
  have h2ne : ∀ j, j ≠ s → fcSlotGet st2 j = fcSlotGet st j := fun j hj => by
    rw [hst2, fcSlotGet_set_ne st1 _ s j _ fun e => hj e.symm]
    exact h1ne j hj
  have h2data : st2.data = st.data ++ [v] := by
    rw [hst2]
    show st1.data ++ [(fcSlotGet st1 s).val] = _
    rw [h1self]
    rfl
  set st3 := fc_reset st2 s with hst3
  have h3self : fcSlotGet st3 s = ⟨0, v, (fcSlotGet st s).result, true⟩ := by
    rw [hst3]
    unfold fc_reset
    rw [fcSlotGet_post_self st2 s _ (by omega), h2self]
  have h3ne : ∀ j, j ≠ s → fcSlotGet st3 j = fcSlotGet st j := fun j hj => by
    rw [hst3]
    unfold fc_reset
    rw [fcSlotGet_post_ne st2 s j _ fun e => hj e.symm]
    exact h2ne j hj
  have henq : fc_queue_enqueue st s v = st3 := by
    unfold fc_queue_enqueue
    rw [← hst1, hcomb, hcs, ← hst3]
  rw [henq]
  refine ⟨h2data, ?_, h3self, h3ne⟩
  have : st3.slots.length = st2.slots.length := fc_post_len st2 s _
  omega

/-- fc_read_result reports the empty-error exactly when the result
field holds -1. -/
theorem fc_read_result_error_iff (st : FCState) (s : Nat) :
    fc_read_result st s = .error "empty" ↔ (fcSlotGet st s).result = -1 := by
  unfold fc_read_result
  by_cases h : (fcSlotGet st s).result = -1 <;> simp [h]

/-- Claim C3 (code bug in fc_stack / fc_queue): a pop or dequeue on a
freshly constructed container reports the empty-error for the SGL
stack, the SGL queue, the Treiber stack, the M&S queue and the
elimination stack (for every rand() draw); but for the flat-combining
stack and queue the constructor never initialises the result field of
any slot, so the first pop/dequeue reports the empty-error if and only
if the indeterminate initial bytes r0 of that field happen to equal -1;
in particular with zeroed memory (r0 = 0, e.g. a value-initialised
atomic) the first pop returns the garbage value 0 instead of the
empty-error. -/
theorem empty_on_fresh_container :
    (sgl_stack_pop []).1 = .error "empty" ∧
    (sgl_queue_dequeue []).1 = .error "empty" ∧
    (treiber_pop []).1 = .error "empty" ∧
    (msqueue_dequeue msqueue_init).1 = .error "empty" ∧
    (∀ r, (elimination_pop elim_init r).1 = .error "empty") ∧
    (∀ v0 r0 s, s < MAX_THREADS →
      ((fc_stack_pop (fc_init v0 r0) s).1 = .error "empty" ↔ r0 s = -1)) ∧
    (∀ v0 r0 s, s < MAX_THREADS →
      ((fc_queue_dequeue (fc_init v0 r0) s).1 = .error "empty" ↔ r0 s = -1)) ∧
    (fc_stack_pop (fc_init (fun _ => 0) (fun _ => 0)) 0).1 = .ok 0 ∧
    (fc_queue_dequeue (fc_init (fun _ => 0) (fun _ => 0)) 0).1 = .ok 0 := by
  refine ⟨rfl, rfl, rfl, rfl, ?_, ?_, ?_, ?_, ?_⟩
  · intro r
    rw [elimination_pop_fallback elim_init r rfl]
    rfl
  · intro v0 r0 s hs
    obtain ⟨h1, -, -⟩ := fc_stack_pop_empty_spec (fc_init v0 r0) s hs
      (fc_init_len v0 r0) rfl (fun i _ => fc_init_op v0 r0 i)
    rw [h1, fc_init_slot v0 r0 s hs]
    by_cases hr : r0 s = -1 <;> simp [hr]
  · intro v0 r0 s hs
    obtain ⟨h1, -, -⟩ := fc_queue_dequeue_empty_spec (fc_init v0 r0) s hs
      (fc_init_len v0 r0) rfl (fun i _ => fc_init_op v0 r0 i)
    rw [h1, fc_init_slot v0 r0 s hs]
    by_cases hr : r0 s = -1 <;> simp [hr]
  · obtain ⟨h1, -, -⟩ := fc_stack_pop_empty_spec (fc_init (fun _ => 0) (fun _ => 0)) 0
      (by decide) (fc_init_len _ _) rfl (fun i _ => fc_init_op _ _ i)
    rw [h1, fc_init_slot _ _ 0 (by decide)]
    norm_num
  · obtain ⟨h1, -, -⟩ := fc_queue_dequeue_empty_spec (fc_init (fun _ => 0) (fun _ => 0)) 0
      (by decide) (fc_init_len _ _) rfl (fun i _ => fc_init_op _ _ i)
    rw [h1, fc_init_slot _ _ 0 (by decide)]
    norm_num

/-- Concrete instance of the previous theorem: with result bytes -1 the
fresh pop does report empty. -/
theorem empty_on_fresh_container_witness :
    (fc_stack_pop (fc_init (fun _ => 0) (fun _ => -1)) 5).1 = .error "empty" :=
  (empty_on_fresh_container.2.2.2.2.2.1 (fun _ => 0) (fun _ => -1) 5 (by decide)).mpr rfl

/-- Claim C4: in the flat-combining stack and queue, when the
underlying sequential container is empty at combine time the combiner
leaves the result field of every slot (in particular the callers)
unchanged; the caller reports the empty-error exactly when its slot
result equals -1 after combining; and consequently a pop/dequeue whose
combined result is the legitimately stored value -1 is reported as the
empty-error rather than returned. -/
theorem fc_empty_sentinel_conflation :
    (∀ st s, st.data = [] → s < MAX_THREADS → st.slots.length = MAX_THREADS →
      (∀ i, i ≠ s → (fcSlotGet st i).op = 0) →
      ∀ j, (fcSlotGet (fc_stack_pop st s).2 j).result = (fcSlotGet st j).result) ∧
    (∀ st s, (fc_stack_pop st s).1 = .error "empty" ↔
      (fcSlotGet (fc_stack_pop st s).2 s).result = -1) ∧
    (∀ v0 r0 s, s < MAX_THREADS →
      (fc_stack_pop (fc_stack_push (fc_init v0 r0) s (-1)) s).1 = .error "empty") ∧
    (∀ st s, st.data = [] → s < MAX_THREADS → st.slots.length = MAX_THREADS →
      (∀ i, i ≠ s → (fcSlotGet st i).op = 0) →
      ∀ j, (fcSlotGet (fc_queue_dequeue st s).2 j).result = (fcSlotGet st j).result) ∧
    (∀ st s, (fc_queue_dequeue st s).1 = .error "empty" ↔
      (fcSlotGet (fc_queue_dequeue st s).2 s).result = -1) ∧
    (∀ v0 r0 s, s < MAX_THREADS →
      (fc_queue_dequeue (fc_queue_enqueue (fc_init v0 r0) s (-1)) s).1 = .error "empty") := by
  refine ⟨?_, ?_, ?_, ?_, ?_, ?_⟩
  · intro st s hdta hs hlen hidle
    exact (fc_stack_pop_empty_spec st s hs hlen hdta hidle).2.2
  · intro st s
    have h1 : (fc_stack_pop st s).1 = fc_read_result (fc_stack_pop_state st s) s := by
      simp only [fc_stack_pop]
    have h2 : (fc_stack_pop st s).2 = fc_stack_pop_state st s := by
      simp only [fc_stack_pop]
    rw [h1, h2]
    exact fc_read_result_error_iff _ s
  · intro v0 r0 s hs
    have hlen0 := fc_init_len v0 r0
    have hidle0 : ∀ i, i ≠ s → (fcSlotGet (fc_init v0 r0) i).op = 0 :=
      fun i _ => fc_init_op v0 r0 i
    obtain ⟨hd, hlen, hself, hne⟩ := fc_stack_push_spec (fc_init v0 r0) s (-1) hs hlen0 hidle0
    have hidle1 : ∀ i, i ≠ s → (fcSlotGet (fc_stack_push (fc_init v0 r0) s (-1)) i).op = 0 :=
      fun i hi => by rw [hne i hi]; exact fc_init_op v0 r0 i
    have hdz : (fc_init v0 r0).data = [] := rfl
    have hd1 : (fc_stack_push (fc_init v0 r0) s (-1)).data = -1 :: [] := by
      rw [hd, hdz]
    obtain ⟨hp, -⟩ := fc_stack_pop_cons_spec (fc_stack_push (fc_init v0 r0) s (-1)) s
      (-1) [] hs (by rw [hlen, hlen0]) hd1 hidle1
    rw [hp]
    norm_num
  · intro st s hdta hs hlen hidle
    exact (fc_queue_dequeue_empty_spec st s hs hlen hdta hidle).2.2
  · intro st s
    have h1 : (fc_queue_dequeue st s).1 = fc_read_result (fc_queue_dequeue_state st s) s := by
      simp only [fc_queue_dequeue]
    have h2 : (fc_queue_dequeue st s).2 = fc_queue_dequeue_state st s := by
      simp only [fc_queue_dequeue]
    rw [h1, h2]
    exact fc_read_result_error_iff _ s
  · intro v0 r0 s hs
    have hlen0 := fc_init_len v0 r0
    have hidle0 : ∀ i, i ≠ s → (fcSlotGet (fc_init v0 r0) i).op = 0 :=
      fun i _ => fc_init_op v0 r0 i
    obtain ⟨hd, hlen, hself, hne⟩ := fc_queue_enqueue_spec (fc_init v0 r0) s (-1) hs hlen0 hidle0
    have hidle1 : ∀ i, i ≠ s → (fcSlotGet (fc_queue_enqueue (fc_init v0 r0) s (-1)) i).op = 0 :=
      fun i hi => by rw [hne i hi]; exact fc_init_op v0 r0 i
    have hdz : (fc_init v0 r0).data = [] := rfl
    have hd1 : (fc_queue_enqueue (fc_init v0 r0) s (-1)).data = -1 :: [] := by
      rw [hd, hdz]
      rfl
    obtain ⟨hp, -⟩ := fc_queue_dequeue_cons_spec (fc_queue_enqueue (fc_init v0 r0) s (-1)) s
      (-1) [] hs (by rw [hlen, hlen0]) hd1 hidle1
    rw [hp]
    norm_num

/-- Concrete instance: push(-1) then pop on a fresh fc_stack reports
empty even though -1 was legitimately stored. -/
theorem fc_empty_sentinel_conflation_witness :
    (fc_stack_pop (fc_stack_push (fc_init (fun _ => 0) (fun _ => 0)) 0 (-1)) 0).1 =
      .error "empty" :=
  fc_empty_sentinel_conflation.2.2.1 (fun _ => 0) (fun _ => 0) 0 (by decide)

/-- Claim C5 (code bug in fc_stack::get_slot): fc_queue::get_slot maps
every counter ticket into [0, MAX_THREADS), but fc_stack::get_slot
omits the modulo, so the thread drawing ticket 32 (the 33rd distinct
thread) receives slot index 32, outside the 32-entry slot array. -/
theorem fc_get_slot_range :
    (∀ ticket, fc_queue_get_slot ticket < MAX_THREADS) ∧
    fc_stack_get_slot 32 = 32 ∧
    ¬ fc_stack_get_slot 32 < MAX_THREADS := by
  refine ⟨fun t => Nat.mod_lt _ (by decide), rfl, by decide⟩

/- ### Epoch condition variable and bounded queue (condvar.cpp)

The mutex serialises the bodies of enqueue and dequeue, so each
completed operation acts atomically on (buffer, head, tail, count).  A
wait suspends an operation until its guard holds; a completed operation
is one whose guard held, modelled by the Option: none means the caller
is still blocked. -/

/-- condvar_no_spurious::signal / broadcast: increment epoch, then
notify.  The new epoch value. -/
def condvar_signal (epoch : Nat) : Nat := epoch + 1

/-- condvar_no_spurious::wait: my_epoch = epoch, then
cv.wait(lock, epoch != my_epoch).  The underlying primitive delivers an
arbitrary finite sequence of wakeups, spurious or signalled; at each
wakeup the predicate re-reads the then-current epoch.  obs lists the
epoch value observed at each successive wakeup; the wait returns at the
first observation different from the captured my_epoch (yielding that
epoch), and none means every wakeup so far was filtered out and the
caller is still blocked. -/
def condvar_wait_returns (my_epoch : Nat) : List Nat → Option Nat
  | [] => none
  | e :: rest => if e = my_epoch then condvar_wait_returns my_epoch rest else some e

/-- The bounded_queue state: the circular buffer and the head, tail and
count fields (C++ int).  The buffer array is not initialised by the
constructor, so the initial contents are a parameter. -/
structure BQState where
  buffer : List Int
  head : Int
  tail : Int
  count : Int
deriving DecidableEq, Repr

/-- bounded_queue::bounded_queue(): head = tail = count = 0; the buffer
holds whatever bytes buf0 the object occupies. -/
def bounded_queue_init (buf0 : List Int) : BQState :=
  { buffer := buf0, head := 0, tail := 0, count := 0 }

/-- bounded_queue::enqueue under the lock: while count == SIZE wait on
not_full (still blocked: none); otherwise buffer[tail] = v, advance
tail modulo SIZE, increment count, signal not_empty. -/
def bounded_queue_enqueue (s : BQState) (v : Int) : Option BQState :=
  if s.count = SIZE then none
  else some { buffer := s.buffer.set s.tail.toNat v,
              head := s.head, tail := (s.tail + 1) % SIZE, count := s.count + 1 }

/-- bounded_queue::dequeue under the lock: while count == 0 wait on
not_empty (still blocked: none); otherwise read buffer[head], advance
head modulo SIZE, decrement count, signal not_full. -/
def bounded_queue_dequeue (s : BQState) : Option (Int × BQState) :=
  if s.count = 0 then none
  else some (s.buffer.getD s.head.toNat 0,
             { s with head := (s.head + 1) % SIZE, count := s.count - 1 })

/-- States reachable by any sequence of completed enqueues and
dequeues from a freshly constructed bounded_queue. -/
inductive BQReachable : BQState → Prop where
  | init (buf0 : List Int) : BQReachable (bounded_queue_init buf0)
  | enq (s s₂ : BQState) (v : Int) :
      BQReachable s → bounded_queue_enqueue s v = some s₂ → BQReachable s₂
  | deq (s s₂ : BQState) (v : Int) :
      BQReachable s → bounded_queue_dequeue s = some (v, s₂) → BQReachable s₂

/-- Claim C8: every state of the bounded queue reachable from the
initial state head = tail = count = 0 by completed enqueues and
dequeues satisfies 0 ≤ count ≤ SIZE and tail = (head + count) mod SIZE,
with SIZE = 50. -/
theorem bounded_queue_invariants (s : BQState) (h : BQReachable s) :
    0 ≤ s.count ∧ s.count ≤ SIZE ∧ s.tail = (s.head + s.count) % SIZE := by
  suffices hinv : 0 ≤ s.count ∧ s.count ≤ SIZE ∧ 0 ≤ s.head ∧ s.head < SIZE ∧
      0 ≤ s.tail ∧ s.tail < SIZE ∧ s.tail = (s.head + s.count) % SIZE by
    exact ⟨hinv.1, hinv.2.1, hinv.2.2.2.2.2.2⟩
  induction h with
  | init buf0 =>
    unfold bounded_queue_init SIZE
    dsimp only
    omega
  | enq t t₂ v ht hstep ih =>
    unfold bounded_queue_enqueue at hstep
    by_cases hc : t.count = SIZE
    · rw [if_pos hc] at hstep
      exact absurd hstep (by simp)
    · rw [if_neg hc] at hstep
      obtain ⟨h0, h1, h2, h3, h4, h5, h6⟩ := ih
      injection hstep with hstep
      subst hstep
      unfold SIZE at h1 h3 h5 h6 hc ⊢
      dsimp only
      omega
  | deq t t₂ v ht hstep ih =>
    unfold bounded_queue_dequeue at hstep
    by_cases hc : t.count = 0
    · rw [if_pos hc] at hstep
      exact absurd hstep (by simp)
    · rw [if_neg hc] at hstep
      obtain ⟨h0, h1, h2, h3, h4, h5, h6⟩ := ih
      injection hstep with hstep
      have hs2 : { t with head := (t.head + 1) % SIZE, count := t.count - 1 } = t₂ := by
        have hsnd := congrArg Prod.snd hstep
        simpa using hsnd
      subst hs2
      unfold SIZE at h1 h3 h5 h6 ⊢
      dsimp only
      omega

/-- Concrete instance of the bounded-queue invariant at the initial
state. -/
theorem bounded_queue_invariants_witness :
    0 ≤ (bounded_queue_init []).count ∧ (bounded_queue_init []).count ≤ SIZE ∧
    (bounded_queue_init []).tail =
      ((bounded_queue_init []).head + (bounded_queue_init []).count) % SIZE :=
  bounded_queue_invariants (bounded_queue_init []) (BQReachable.init [])

/-- Claim C9: a wait that captured epoch e never returns at a wakeup
observing epoch e - in particular it survives any number of spurious
wakeups at unchanged epoch - and when it does return, the epoch it
observed differs from the captured snapshot. -/
theorem condvar_no_spurious_wait :
    (∀ e obs ε, condvar_wait_returns e obs = some ε → ε ≠ e) ∧
    (∀ e n, condvar_wait_returns e (List.replicate n e) = none) := by
  constructor
  · intro e obs
    induction obs with
    | nil => intro ε h; exact absurd h (by simp [condvar_wait_returns])
    | cons a rest ih =>
      intro ε h
      unfold condvar_wait_returns at h
      by_cases ha : a = e
      · rw [if_pos ha] at h
        exact ih ε h
      · rw [if_neg ha] at h
        injection h with h
        subst h
        exact ha
  · intro e n
    induction n with
    | zero => rfl
    | succ k ih =>
      unfold condvar_wait_returns
      simpa [List.replicate] using ih

/-- Concrete instance: a waiter that captured epoch 5 survives two
spurious wakeups at epoch 5 and returns only at the wakeup observing
epoch 6, which differs from 5. -/
theorem condvar_no_spurious_wait_witness :
    condvar_wait_returns 5 [5, 5, 6] = some 6 ∧ (6 : Nat) ≠ 5 :=
  ⟨by decide, condvar_no_spurious_wait.1 5 [5, 5, 6] 6 (by decide)⟩

/- ### Structural invariants of the Michael-Scott queue (claim C7)

The labelled step relation below has one step per linearization point
of msqueue.cpp: the successful CAS(last->next, null, n) of enqueue
(line 39), a successful CAS on tail (lines 41, 46 and 67, the swing and
the two help paths), the successful CAS(head, first, next) of dequeue
(line 71), and the throw on the observed-empty path (line 64).  Failed
CAS attempts and plain loads leave the shared state unchanged, so every
interleaved execution of the source is a sequence of these steps. -/

/-- Labels of the msqueue linearization points. -/
inductive MSLabel where
  | enq_link (v : Int)
  | tail_swing
  | deq (v : Int)
  | deq_empty
deriving DecidableEq, Repr

/-- One linearization step of the msqueue.  A successful link CAS
requires the linked-at node to have null next (that is what the CAS
compares); tail only ever moves along a next pointer; a successful
dequeue CAS requires the observed first ≠ last and a present next; the
empty throw requires head = tail with null next. -/
inductive MSStep : MSQueue → MSLabel → MSQueue → Prop where
  | link (s : MSQueue) (v : Int) (h : msNext s s.tail = none) :
      MSStep s (.enq_link v) (msLink s v)
  | swing (s : MSQueue) (p : Nat) (h : msNext s s.tail = some p) :
      MSStep s .tail_swing (msSwing s p)
  | deq (s : MSQueue) (p : Nat) (hne : s.head ≠ s.tail)
      (h : msNext s s.head = some p) :
      MSStep s (.deq (msValue s p)) (msAdvanceHead s p)
  | deq_empty (s : MSQueue) (hhd : s.head = s.tail)
      (h : msNext s s.head = none) :
      MSStep s .deq_empty s

/-- States reachable from the freshly constructed queue by any
interleaving of enqueue and dequeue steps. -/
inductive MSReachable : MSQueue → Prop where
  | init : MSReachable msqueue_init
  | step (s s₂ : MSQueue) (l : MSLabel) :
      MSReachable s → MSStep s l s₂ → MSReachable s₂

/-- Index b is reachable from index a along next pointers. -/
inductive msReachIdx (s : MSQueue) : Nat → Nat → Prop where
  | refl (a : Nat) : msReachIdx s a a
  | step (a b c : Nat) : msNext s a = some b → msReachIdx s b c →
      msReachIdx s a c

/-- Walking next pointers from index i reaches the null pointer within
fuel steps: the chain is finite and acyclic. -/
def msWalkEnds (s : MSQueue) : Nat → Nat → Bool
  | 0, _ => false
  | fuel + 1, i =>
    match msNext s i with
    | none => true
    | some j => msWalkEnds s fuel j

/-- The structural invariant of the msqueue: head and tail are live
nodes, next pointers go strictly forward in the (append-only) heap,
tail is the last node or its immediate predecessor, and tail is
reachable from head. -/
def MSInv (s : MSQueue) : Prop :=
  s.head < s.heap.length ∧
  s.tail < s.heap.length ∧
  (∀ i j, msNext s i = some j → i < j ∧ j < s.heap.length) ∧
  (msNext s s.tail = none ∨ ∃ p, msNext s s.tail = some p ∧ msNext s p = none) ∧
  msReachIdx s s.head s.tail

/-- Out-of-range indices have no successor. -/
theorem msNext_out (s : MSQueue) (i : Nat) (h : s.heap.length ≤ i) :
    msNext s i = none := by
  unfold msNext
  rw [List.getD_eq_default _ _ h]

/-- getD over the heap produced by a link, at the relinked node. -/
theorem getD_set_append_self {α : Type} (l : List α) (t : Nat) (a b d : α)
    (ht : t < l.length) : ((l.set t a) ++ [b]).getD t d = a := by
  rw [List.getD_eq_getElem?_getD, List.getElem?_append,
    if_pos (by simpa using ht)]
  simp [List.getElem?_set, ht]

/-- getD over the heap produced by a link, at the fresh node. -/
theorem getD_set_append_last {α : Type} (l : List α) (t : Nat) (a b d : α) :
    ((l.set t a) ++ [b]).getD l.length d = b := by
  rw [List.getD_eq_getElem?_getD, List.getElem?_append_right (by simp)]
  simp

/-- getD over the heap produced by a link, elsewhere. -/
theorem getD_set_append_other {α : Type} (l : List α) (t i : Nat) (a b d : α)
    (h1 : i ≠ t) (h2 : i ≠ l.length) :
    ((l.set t a) ++ [b]).getD i d = l.getD i d := by
  by_cases hi : i < l.length
  · rw [List.getD_eq_getElem?_getD, List.getElem?_append,
      if_pos (by simpa using hi),
      List.getElem?_set_ne fun e => h1 e.symm, ← List.getD_eq_getElem?_getD]
  · have hge1 : (l.set t a ++ [b]).length ≤ i := by
      simp
      omega
    have hge2 : l.length ≤ i := by omega
    rw [List.getD_eq_default _ _ hge1, List.getD_eq_default _ _ hge2]

/-- The heap grows by one node at a link. -/
theorem msLink_len (s : MSQueue) (v : Int) :
    (msLink s v).heap.length = s.heap.length + 1 := by
  simp [msLink]

/-- The next function after a link: the old tail now points at the
fresh node, the fresh node is last, everything else is unchanged. -/
theorem msNext_link (s : MSQueue) (v : Int) (ht : s.tail < s.heap.length) (i : Nat) :
    msNext (msLink s v) i =
      if i = s.tail then some s.heap.length
      else if i = s.heap.length then none
      else msNext s i := by
  unfold msNext msLink
  dsimp only
  by_cases h1 : i = s.tail
  · subst h1
    rw [if_pos rfl, getD_set_append_self _ _ _ _ _ ht]
  · rw [if_neg h1]
    by_cases h2 : i = s.heap.length
    · subst h2
      rw [if_pos rfl, getD_set_append_last]
    · rw [if_neg h2, getD_set_append_other _ _ _ _ _ _ h1 h2]

/-- Chain reachability only depends on the heap. -/
theorem msReachIdx_congr (s s₂ : MSQueue) (hheap : s₂.heap = s.heap) (a b : Nat)
    (hr : msReachIdx s a b) : msReachIdx s₂ a b := by
  induction hr with
  | refl a => exact .refl a
  | step a b c hab hbc ih =>
    refine .step a b c ?_ ih
    unfold msNext at hab ⊢
    rw [hheap]
    exact hab

/-- Chain reachability extends along one more next pointer. -/
theorem msReachIdx_snoc (s : MSQueue) (a b c : Nat) (hr : msReachIdx s a b)
    (h : msNext s b = some c) : msReachIdx s a c := by
  induction hr with
  | refl a => exact .step a c c h (.refl c)
  | step x y z hxy hyz ih => exact .step x y c hxy (ih h)

/-- A link preserves chain reachability: the only next pointer it
changes is the null one hanging off the linked-at node, which no
reachability path can use. -/
theorem msReachIdx_link (s : MSQueue) (v : Int) (ht : s.tail < s.heap.length)
    (hn : msNext s s.tail = none) (a b : Nat) (hr : msReachIdx s a b) :
    msReachIdx (msLink s v) a b := by
  induction hr with
  | refl a => exact .refl a
  | step a b c hab hbc ih =>
    refine .step a b c ?_ ih
    rw [msNext_link s v ht a]
    have ha : a ≠ s.tail := fun e => by
      rw [e, hn] at hab
      cases hab
    have ha2 : a ≠ s.heap.length := by
      intro e
      rw [e, msNext_out s s.heap.length (by omega)] at hab
      cases hab
    rw [if_neg ha, if_neg ha2]
    exact hab

/-- A non-trivial chain reachability starts with one next step. -/
theorem msReachIdx_head_step (s : MSQueue) (a b : Nat) (hr : msReachIdx s a b)
    (hne : a ≠ b) : ∃ y, msNext s a = some y ∧ msReachIdx s y b := by
  cases hr with
  | refl => exact absurd rfl hne
  | step a y c hay hyc => exact ⟨y, hay, hyc⟩

/-- The freshly constructed queue satisfies the invariant. -/
theorem msInv_init : MSInv msqueue_init := by
  have hn : ∀ i, msNext msqueue_init i = none := fun i => by
    cases i <;> rfl
  refine ⟨by decide, by decide, ?_, Or.inl (hn 0), .refl 0⟩
  intro i j h
  rw [hn i] at h
  cases h

/-- Every linearization step preserves the invariant. -/
theorem msInv_step (s s₂ : MSQueue) (l : MSLabel) (hinv : MSInv s)
    (hstep : MSStep s l s₂) : MSInv s₂ := by
  obtain ⟨hh, ht, hmono, hlast, hreach⟩ := hinv
  cases hstep with
  | link v hn =>
    refine ⟨?_, ?_, ?_, ?_, ?_⟩
    · show s.head < (msLink s v).heap.length
      rw [msLink_len]
      omega
    · show s.tail < (msLink s v).heap.length
      rw [msLink_len]
      omega
    · intro i j hij
      rw [msNext_link s v ht i] at hij
      rw [msLink_len]
      by_cases h1 : i = s.tail
      · rw [if_pos h1] at hij
        injection hij with hij
        omega
      · rw [if_neg h1] at hij
        by_cases h2 : i = s.heap.length
        · rw [if_pos h2] at hij
          cases hij
        · rw [if_neg h2] at hij
          obtain ⟨hij1, hij2⟩ := hmono i j hij
          omega
    · right
      refine ⟨s.heap.length, ?_, ?_⟩
      · show msNext (msLink s v) s.tail = some s.heap.length
        rw [msNext_link s v ht s.tail, if_pos rfl]
      · show msNext (msLink s v) s.heap.length = none
        rw [msNext_link s v ht s.heap.length, if_neg (by omega), if_pos rfl]
    · exact msReachIdx_link s v ht hn s.head s.tail hreach
  | swing p hp =>
    obtain ⟨hp1, hp2⟩ := hmono s.tail p hp
    refine ⟨hh, hp2, hmono, ?_, ?_⟩
    · rcases hlast with hnone | ⟨q, hq1, hq2⟩
      · rw [hp] at hnone
        cases hnone
      · rw [hp] at hq1
        injection hq1 with hq1
        subst hq1
        exact Or.inl hq2
    · exact msReachIdx_congr s (msSwing s p) rfl s.head p
        (msReachIdx_snoc s s.head s.tail p hreach hp)
  | deq p hne hp =>
    obtain ⟨hp1, hp2⟩ := hmono s.head p hp
    refine ⟨hp2, ht, hmono, hlast, ?_⟩
    obtain ⟨y, hay, hyc⟩ := msReachIdx_head_step s s.head s.tail hreach hne
    rw [hp] at hay
    injection hay with hay
    subst hay
    exact msReachIdx_congr s (msAdvanceHead s p) rfl p s.tail hyc
  | deq_empty hhd hn =>
    exact ⟨hh, ht, hmono, hlast, hreach⟩

/-- Every reachable state satisfies the invariant. -/
theorem msInv_reachable (s : MSQueue) (h : MSReachable s) : MSInv s := by
  induction h with
  | init => exact msInv_init
  | step t t₂ l hr hstep ih => exact msInv_step t t₂ l ih hstep

/-- Strictly forward next pointers make every walk terminate. -/
theorem msWalkEnds_of_mono (s : MSQueue)
    (hmono : ∀ i j, msNext s i = some j → i < j ∧ j < s.heap.length) :
    ∀ fuel i, s.heap.length - i < fuel → msWalkEnds s fuel i = true := by
  intro fuel
  induction fuel with
  | zero => intro i hi; omega
  | succ k ih =>
    intro i hi
    cases hn : msNext s i with
    | none => simp [msWalkEnds, hn]
    | some j =>
      obtain ⟨h1, h2⟩ := hmono i j hn
      simp only [msWalkEnds, hn]
      exact ih j (by omega)

/-- Claim C7: in every state reachable by any interleaving of enqueue
and dequeue steps, the msqueue heap is non-empty and head references a
live node (the dummy allocated at construction guarantees head is never
null); next pointers go strictly forward, so the chain of nodes
reachable from head is acyclic and finite (the walk from head reaches
the null pointer); tail references the actual last node or its
immediate predecessor, lagging by at most one link, and is itself on
the chain from head; and every dequeue step returns the value of
head.next (the node at head holds no logical value) and advances head
onto it. -/
theorem msqueue_structural_invariants (s : MSQueue) (h : MSReachable s) :
    (0 < s.heap.length ∧ s.head < s.heap.length) ∧
    (∀ i j, msNext s i = some j → i < j ∧ j < s.heap.length) ∧
    msWalkEnds s (s.heap.length + 1) s.head = true ∧
    (msNext s s.tail = none ∨ ∃ p, msNext s s.tail = some p ∧ msNext s p = none) ∧
    msReachIdx s s.head s.tail ∧
    (∀ v s₂, MSStep s (.deq v) s₂ →
      ∃ p, msNext s s.head = some p ∧ v = msValue s p ∧ s₂ = msAdvanceHead s p) := by
  obtain ⟨hh, ht, hmono, hlast, hreach⟩ := msInv_reachable s h
  refine ⟨⟨by omega, hh⟩, hmono, ?_, hlast, hreach, ?_⟩
  · exact msWalkEnds_of_mono s hmono (s.heap.length + 1) s.head (by omega)
  · intro v s₂ hstep
    cases hstep with
    | deq p hne hp => exact ⟨p, hp, rfl, rfl⟩

/-- Concrete instance: the walk from head terminates at the freshly
constructed queue. -/
theorem msqueue_structural_invariants_witness :
    msWalkEnds msqueue_init (msqueue_init.heap.length + 1) msqueue_init.head = true :=
  (msqueue_structural_invariants msqueue_init MSReachable.init).2.2.1

/- ### Atomicity on the empty-error path (claim C10) -/

/-- While head has a successor, the dequeue loop never reports empty:
each iteration either helps tail forward (head and heap unchanged) and
retries, or succeeds. -/
theorem msqueue_dequeue_loop_advances (p : Nat) :
    ∀ (fuel : Nat) (s : MSQueue), msNext s s.head = some p →
    (msqueue_dequeue_loop fuel s).1 ≠ .error "empty" := by
  intro fuel
  induction fuel with
  | zero =>
    intro s hp h
    simp only [msqueue_dequeue_loop] at h
    simp at h
  | succ k ih =>
    intro s hp
    simp only [msqueue_dequeue_loop]
    rw [hp]
    dsimp only
    by_cases hht : s.head = s.tail
    · rw [if_pos hht]
      exact ih (msSwing s p) hp
    · rw [if_neg hht]
      simp

/-- A dequeue that reports empty leaves the queue state exactly as it
was: the empty branch is taken on the first iteration (head, tail and
heap untouched), and after any help step the loop can no longer report
empty. -/
theorem msqueue_dequeue_empty_frame (s s₂ : MSQueue)
    (h : msqueue_dequeue s = (.error "empty", s₂)) : s₂ = s := by
  unfold msqueue_dequeue at h
  generalize hf : s.heap.length + 1 = fuel at h
  cases fuel with
  | zero => omega
  | succ k =>
    simp only [msqueue_dequeue_loop] at h
    cases hn : msNext s s.head with
    | none =>
      rw [hn] at h
      dsimp only at h
      by_cases hht : s.head = s.tail
      · rw [if_pos hht] at h
        have h2 := congrArg Prod.snd h
        simpa using h2.symm
      · rw [if_neg hht] at h
        have h1 := congrArg Prod.fst h
        simp at h1
    | some p =>
      rw [hn] at h
      dsimp only at h
      by_cases hht : s.head = s.tail
      · rw [if_pos hht] at h
        have h1 := congrArg Prod.fst h
        exact absurd h1 (msqueue_dequeue_loop_advances p k (msSwing s p) hn)
      · rw [if_neg hht] at h
        have h1 := congrArg Prod.fst h
        simp at h1

/-- Claim C10: for the SGL stack, the SGL queue, the Treiber stack and
the M&S queue, a pop or dequeue that fails with the empty-error leaves
the container state (and hence the behaviour of every subsequent
operation) exactly as it was before the failed call. -/
theorem failed_pop_leaves_state :
    (∀ s r s₂, sgl_stack_pop s = (.error r, s₂) → s₂ = s) ∧
    (∀ q r q₂, sgl_queue_dequeue q = (.error r, q₂) → q₂ = q) ∧
    (∀ s r s₂, treiber_pop s = (.error r, s₂) → s₂ = s) ∧
    (∀ q q₂, msqueue_dequeue q = (.error "empty", q₂) → q₂ = q) := by
  refine ⟨?_, ?_, ?_, fun q q₂ h => msqueue_dequeue_empty_frame q q₂ h⟩
  · intro s r s₂ h
    cases s with
    | nil =>
      have h2 := congrArg Prod.snd h
      simpa using h2.symm
    | cons v rest =>
      have h1 := congrArg Prod.fst h
      simp [sgl_stack_pop] at h1
  · intro q r q₂ h
    cases q with
    | nil =>
      have h2 := congrArg Prod.snd h
      simpa using h2.symm
    | cons v rest =>
      have h1 := congrArg Prod.fst h
      simp [sgl_queue_dequeue] at h1
  · intro s r s₂ h
    cases s with
    | nil =>
      have h2 := congrArg Prod.snd h
      simpa using h2.symm
    | cons v rest =>
      have h1 := congrArg Prod.fst h
      simp [treiber_pop] at h1

/-- Concrete instance: the failed dequeue on the fresh msqueue returns
the untouched initial state. -/
theorem failed_pop_leaves_state_witness :
    (msqueue_dequeue msqueue_init).2 = msqueue_init :=
  failed_pop_leaves_state.2.2.2 msqueue_init (msqueue_dequeue msqueue_init).2 rfl
